import Mathlib

/-!
Verification of the business-intelligence-ai repository.

This file gives a shallow embedding of the repository's core logic:

* `app/scraper.py`: the bounded breadth-first crawler (`scrape_website`,
  `get_links`).
* `app/vector_store.py`: Pinecone index naming (`get_index_name`) and context
  retrieval (`query_context`).
* `app/ai.py`: the RAG chat path (`chat_interaction`), with the LangGraph
  checkpointer modelled as an explicit association-list store keyed by
  thread id, and the LLM as an opaque function parameter.
* `app/main.py`: the bearer-token auth gate of the two POST endpoints,
  modelled with an explicit effect trace, plus the import surface and the
  keyword arguments of the `/chat` endpoint's call into the chat service.

External collaborators (the HTTP client, the HTML parser, MD5, the LLM, the
Pinecone search call, the LangGraph checkpointer) are modelled as explicit
parameters or environment records; everything the repository itself computes
is translated directly from the Python source.
-/

/-! ## URLs and pages

`urlparse` components that the code inspects: scheme, netloc, the fragment
(stripped by `get_links`), and everything else lumped into `rest`.
An anchor list stands for the already-`urljoin`-resolved hrefs of the
`<a href=...>` tags of a page, and `content` for the `clean_html` text. -/

structure Url where
  scheme : String
  netloc : String
  rest : String
  fragment : String
deriving DecidableEq, Repr

structure Page where
  anchors : List Url
  content : String
deriving Repr

/-- `link.split("#")[0]` on a parsed URL: drop the fragment. -/
def dropFragment (u : Url) : Url :=
  { u with fragment := "" }

/-- `get_links` (scraper.py lines 10-22): keep anchors on the same netloc with
scheme http or https, strip fragments, deduplicate (`list(set(links))`). -/
def get_links (anchors : List Url) (base_domain : String) : List Url :=
  (((anchors.filter fun l =>
      l.netloc == base_domain && (l.scheme == "http" || l.scheme == "https")).map
    dropFragment).dedup)

/-! ## The crawler (scraper.py lines 35-74)

The loop body of `scrape_website`, with ghost state `trace` recording every
`client.get` that is attempted (URL and BFS depth).  A `web` value of `none`
models a fetch that raises (the `except` branch: log and continue). -/

/-- The inner `for link in links` loop of `scrape_website`: enqueue each link
not yet visited, marking it visited, at depth `d + 1`. -/
def enqueueLinks (d : Nat) : List Url → List Url → List (Url × Nat) →
    List Url × List (Url × Nat)
  | [], visited, queue => (visited, queue)
  | l :: ls, visited, queue =>
    if l ∈ visited then enqueueLinks d ls visited queue
    else enqueueLinks d ls (visited ++ [l]) (queue ++ [(l, d + 1)])

structure CrawlState where
  queue : List (Url × Nat)
  visited : List Url
  results : List (Url × String)
  trace : List (Url × Nat)
deriving Repr

/-- One `while queue and len(results) < max_pages` loop of `scrape_website`,
iterated `fuel` times (the Python loop terminates because every enqueued URL
is fresh; `fuel` makes that explicit, and every theorem below holds for all
fuel values). -/
def crawl (web : Url → Option Page) (base_domain : String)
    (max_depth max_pages : Nat) : Nat → CrawlState → CrawlState
  | 0, s => s
  | fuel + 1, s =>
    match s.queue with
    | [] => s
    | (u, d) :: rest =>
      if s.results.length < max_pages then
        match web u with
        | none =>
          crawl web base_domain max_depth max_pages fuel
            { s with queue := rest, trace := s.trace ++ [(u, d)] }
        | some page =>
          let newResults :=
            if page.content ≠ "" then s.results ++ [(u, page.content)]
            else s.results
          if d < max_depth then
            let vq := enqueueLinks d (get_links page.anchors base_domain)
              s.visited rest
            crawl web base_domain max_depth max_pages fuel
              { queue := vq.2
                visited := vq.1
                results := newResults
                trace := s.trace ++ [(u, d)] }
          else
            crawl web base_domain max_depth max_pages fuel
              { s with
                queue := rest
                results := newResults
                trace := s.trace ++ [(u, d)] }
      else s

/-- Initial state: `queue = [(start_url, 0)]`, `visited = {start_url}`. -/
def crawlInit (start_url : Url) : CrawlState :=
  { queue := [(start_url, 0)], visited := [start_url], results := [],
    trace := [] }

/-- `scrape_website(start_url, max_depth, max_pages)`: the returned list of
page records (each `{"url": ..., "content": ...}`). -/
def scrape_website (web : Url → Option Page) (start_url : Url)
    (max_depth max_pages fuel : Nat) : List (Url × String) :=
  (crawl web start_url.netloc max_depth max_pages fuel
    (crawlInit start_url)).results

/-- The loop invariant of `scrape_website`: the page bound on results, depth
bounds on frontier and fetches, the same-site guarantee on everything ever
marked visited, the BFS shape of the frontier (depths non-decreasing from
front to back and within one of each other), fetches never shallower than
pending frontier entries, frontier and fetch log covered by the visited set
and mutually duplicate-free, and results a subsequence of the fetch log. -/
structure CrawlInv (base : String) (start : Url) (maxd maxp : Nat)
    (s : CrawlState) : Prop where
  res_le : s.results.length ≤ maxp
  queue_depth : ∀ p ∈ s.queue, p.2 ≤ maxd
  trace_depth : ∀ p ∈ s.trace, p.2 ≤ maxd
  vis_ok : ∀ u ∈ s.visited,
    u = start ∨ (u.netloc = base ∧ (u.scheme = "http" ∨ u.scheme = "https"))
  q_sorted : List.Pairwise (· ≤ ·) (s.queue.map (·.2))
  q_tight : ∀ a ∈ s.queue.map (·.2), ∀ b ∈ s.queue.map (·.2), b ≤ a + 1
  t_sorted : List.Pairwise (· ≤ ·) (s.trace.map (·.2))
  t_q : ∀ a ∈ s.trace.map (·.2), ∀ b ∈ s.queue.map (·.2), a ≤ b
  q_vis : ∀ p ∈ s.queue, p.1 ∈ s.visited
  t_vis : ∀ p ∈ s.trace, p.1 ∈ s.visited
  tq_nodup : (s.trace.map (·.1) ++ s.queue.map (·.1)).Nodup
  res_trace : List.Sublist (s.results.map (·.1)) (s.trace.map (·.1))

/-! ## Index naming (vector_store.py lines 14-30) -/

def isLowerAlnum (c : Char) : Bool :=
  ('a' ≤ c && c ≤ 'z') || ('0' ≤ c && c ≤ '9')

/-- `str.lstrip(c)` on a character list. -/
def lstripC (c : Char) : List Char → List Char
  | [] => []
  | a :: l => if a = c then lstripC c l else a :: l

/-- `str.rstrip(c)` on a character list. -/
def rstripC (c : Char) : List Char → List Char
  | [] => []
  | a :: l =>
    match rstripC c l with
    | [] => if a = c then [] else [a]
    | b :: m => a :: b :: m

/-- `str.strip(c)`. -/
def stripC (c : Char) (l : List Char) : List Char :=
  rstripC c (lstripC c l)

/-- `urlparse(url).netloc.lower().split(":")[0]`: lowercase the netloc and
keep the part before the first colon. -/
def hostOf (u : Url) : String :=
  String.mk ((u.netloc.toList.map Char.toLower).takeWhile fun c => !(c == ':'))

/-- `get_index_name` (vector_store.py lines 14-30), with the MD5 hex digest
supplied as a function parameter `md5hex`. -/
def get_index_name (md5hex : String → String) (u : Url) : String :=
  let domain := hostOf u
  let url_hash := (md5hex domain).toList.take 8
  let clean := stripC '-' (domain.toList.map fun c =>
    if isLowerAlnum c then c else '-')
  let name := "idx-".toList ++ clean ++ '-' :: url_hash
  String.mk (rstripC '-' (name.take 45))

/-- The Pinecone naming rules stated in the `get_index_name` docstring:
lowercase alphanumerics and hyphens, at most 45 characters, starting and
ending with an alphanumeric character. -/
def pineconeValid (s : String) : Bool :=
  decide (s.toList.length ≤ 45) &&
  (s.toList.all fun ch => isLowerAlnum ch || ch == '-') &&
  (match s.toList.head? with
   | some ch => isLowerAlnum ch
   | none => false) &&
  (match s.toList.getLast? with
   | some ch => isLowerAlnum ch
   | none => false)

/-! ## Context retrieval (vector_store.py lines 123-155) -/

/-- One search hit: `hit['fields']` may lack the `url` / `chunk_text` keys
(`.get` with defaults in the source). -/
structure Hit where
  url : Option String
  chunk_text : Option String
deriving DecidableEq, Repr

/-- The Pinecone client as seen by `query_context`: whether `PINECONE_API_KEY`
was set, which indexes exist, and the search call (which may raise). -/
structure PineconeEnv where
  configured : Bool
  hasIndex : String → Bool
  search : String → String → Except String (List Hit)

/-- `query_context` (vector_store.py lines 123-155): empty string when the
client is unconfigured, the index is missing, or the search raises. -/
def query_context (md5hex : String → String) (env : PineconeEnv) (url : Url)
    (query : String) : String :=
  if env.configured = false then ""
  else
    let index_name := get_index_name md5hex url
    if env.hasIndex index_name = false then ""
    else
      match env.search index_name query with
      | .error _ => ""
      | .ok hits =>
        String.intercalate "\n\n" (hits.map fun h =>
          "Source [" ++ h.url.getD "unknown" ++ "]:\n" ++ h.chunk_text.getD "")

/-! ## Chat messages and the checkpoint store (ai.py lines 110-181) -/

/-- `ChatMessage` from models.py: role `"user"` or `"assistant"`. -/
structure ChatMessage where
  role : String
  content : String
deriving DecidableEq, Repr

/-- LangChain message kinds used by the chat path. -/
inductive Message where
  | system : String → Message
  | human : String → Message
  | ai : String → Message
deriving DecidableEq, Repr

def Message.isSystem : Message → Bool
  | .system _ => true
  | _ => false

/-- `HumanMessage(msg.content) if msg.role == "user" else AIMessage(...)`. -/
def convMessage (m : ChatMessage) : Message :=
  if m.role == "user" then .human m.content else .ai m.content

/-- The SQLite checkpointer, modelled as an association list keyed by
thread id: `graph.aget_state({"configurable": {"thread_id": tid}})`. -/
def storeLookup (st : List (String × List Message)) (tid : String) :
    Option (List Message) :=
  match st with
  | [] => none
  | (k, v) :: rest => if k == tid then some v else storeLookup rest tid

/-- Checkpointing the thread's message list after `graph.ainvoke`. -/
def storeInsert (st : List (String × List Message)) (tid : String)
    (msgs : List Message) : List (String × List Message) :=
  (tid, msgs) :: st

/-! ## Prompt assembly and chat_interaction (ai.py lines 110-181) -/

def FALLBACK_CONTEXT : String :=
  "No specific website content found for this query."

/-- The grounding-rules half of the system prompt (ai.py lines 127-137). -/
def GROUNDING_RULES : String :=
  "You are a strict business intelligence assistant. " ++
  "Your ONLY source of information is the PROVIDED CONTEXT below. " ++
  "You are FORBIDDEN from using any pre-trained knowledge about this company or any other external information.\n\n" ++
  "STRICT RULES:\n" ++
  "1. Grounding: ONLY answer using the provided context. If the answer is not explicitly stated in the context, " ++
  "say: \"I am sorry, but the provided website content does not contain information to answer this question.\"\n" ++
  "2. Conciseness: Answer in 2-4 sentences max unless detail is specifically requested.\n" ++
  "3. Preamble: DO NOT start with \"Based on the context...\" or \"Sure!\". Start directly with the answer.\n" ++
  "4. Sources: If multiple sources provide information, synthesize them.\n" ++
  "5. Navigation: Mention relevant URLs from the context if they directly support your answer.\n\n"

/-- The full system prompt: grounding rules, then the retrieved context
between the two markers. -/
def systemPromptOf (context : String) : String :=
  GROUNDING_RULES ++ "--- PROVIDED CONTEXT From Website ---\n" ++ context ++
    "\n--- END CONTEXT ---"

/-- `[line.split("Source [")[1].split("]")[0] for line in context.splitlines()
if "Source [" in line]`, deduplicated (`list(set(...))`). -/
def extractSources (context : String) : List String :=
  ((((context.splitOn "\n").filter fun line =>
      decide (1 < (line.splitOn "Source [").length)).map fun line =>
    ((((line.splitOn "Source [").getD 1 "").splitOn "]").headD "")).dedup)

/-- The chat environment: the MD5 digest, the Pinecone client, and the LLM
(`self.llm.invoke` inside the graph's single `agent` node). -/
structure ChatEnv where
  md5hex : String → String
  pine : PineconeEnv
  llm : List Message → String

/-- The context actually embedded in the system prompt: the retrieved context,
or the fallback when retrieval produced the empty string. -/
def effectiveContext (env : ChatEnv) (url : Url) (query : String) : String :=
  let c := query_context env.md5hex env.pine url query
  if c == "" then FALLBACK_CONTEXT else c

/-- The `context_sources` variable of `chat_interaction` before the final
fallback: empty when retrieval failed, else the extracted source URLs. -/
def contextSourcesOf (env : ChatEnv) (url : Url) (query : String) :
    List String :=
  let c := query_context env.md5hex env.pine url query
  if c == "" then [] else extractSources c

/-- The middle of the message list (ai.py lines 157-167): stored non-system
messages when the thread has non-empty state, else the converted supplied
history. -/
def middleMessages (stored : Option (List Message))
    (history : List ChatMessage) : List Message :=
  match stored with
  | some msgs =>
    if msgs.isEmpty then history.map convMessage
    else msgs.filter fun m => !m.isSystem
  | none => history.map convMessage

/-- The complete `messages` list handed to the graph (ai.py lines 148-170). -/
def promptMessages (env : ChatEnv) (store : List (String × List Message))
    (url : Url) (query thread_id : String) (history : List ChatMessage) :
    List Message :=
  Message.system (systemPromptOf (effectiveContext env url query)) ::
    middleMessages (storeLookup store thread_id) history ++
      [Message.human query]

structure ChatResult where
  agent_response : String
  context_sources : List String
deriving DecidableEq, Repr

/-- `chat_interaction` (ai.py lines 110-181): retrieve context, assemble the
prompt, run the graph under the thread's configuration (the model answers the
prompt; the resulting message list is checkpointed under `thread_id`), and
return the last message plus the context sources (with the
`["Website Content"]` fallback). -/
def chat_interaction (env : ChatEnv) (store : List (String × List Message))
    (url : Url) (query thread_id : String) (history : List ChatMessage) :
    ChatResult × List (String × List Message) :=
  let messages := promptMessages env store url query thread_id history
  let response := env.llm messages
  let newStore := storeInsert store thread_id (messages ++ [.ai response])
  let srcs := contextSourcesOf env url query
  ({ agent_response := response,
     context_sources := if srcs.isEmpty then ["Website Content"] else srcs },
   newStore)

/-! ## The endpoint layer (main.py)

Auth is a FastAPI dependency: it runs before the handler body, so a failed
check means no scraping, analysis, or chat effect happens.  The handler
bodies are modelled by the effects they perform. -/

inductive Effect where
  | scrapeSite : Effect
  | analyzeContent : Effect
  | chatLLM : Effect
deriving DecidableEq, Repr

/-- `verify_token` (main.py lines 50-53): 401 unless the bearer credential
equals the configured secret. -/
def verify_token (secret credentials : String) : Except Nat String :=
  if credentials ≠ secret then .error 401 else .ok credentials

/-- The `/analyze` endpoint's auth gate (main.py lines 63-89): result status
paired with the effects performed. -/
def analyze_website (secret token : String) : Except Nat Unit × List Effect :=
  match verify_token secret token with
  | .error code => (.error code, [])
  | .ok _ => (.ok (), [.scrapeSite, .analyzeContent])

/-- The `/chat` endpoint's auth gate (main.py lines 91-119). -/
def chat_with_website (secret token : String) : Except Nat Unit × List Effect :=
  match verify_token secret token with
  | .error code => (.error code, [])
  | .ok _ => (.ok (), [.scrapeSite, .chatLLM])

/-! ## The import and call surfaces behind claims C1 and C3 -/

/-- The functions `app/scraper.py` actually defines. -/
def scraper_module_defs : List String :=
  ["get_links", "clean_html", "scrape_website"]

/-- The name `app/main.py` line 28 imports from `app.scraper`. -/
def main_scraper_import : String := "scrape_homepage"

/-- The parameters of `AIService.chat_interaction` (ai.py line 110),
excluding `self`. -/
def chat_interaction_params : List String :=
  ["url", "query", "thread_id", "history"]

/-- The keyword arguments `main.py` lines 101-106 passes to
`ai_service.chat_interaction`. -/
def chat_call_keywords : List String :=
  ["content", "query", "thread_id", "history"]

/-! ## Sample values used by the concrete witnesses -/

def sampleUrl : Url :=
  ⟨"http", "example.com", "/", ""⟩

def sampleEnv : ChatEnv :=
  { md5hex := fun _ => "0123456789abcdef0123456789abcdef"
    pine := { configured := false
              hasIndex := fun _ => false
              search := fun _ _ => .error "down" }
    llm := fun _ => "answer" }

def sampleStore : List (String × List Message) :=
  [("t1", [Message.system "old prompt", Message.human "hi",
           Message.ai "hello"])]

def sampleLinkA : Url :=
  ⟨"http", "example.com", "/a", ""⟩

def sampleLinkB : Url :=
  ⟨"http", "example.com", "/b", ""⟩

/-- A two-page site: the start page links to `/a` and `/b`. -/
def sampleWeb : Url → Option Page := fun u =>
  if u = sampleUrl then some ⟨[sampleLinkA, sampleLinkB], "home"⟩ else none

/-! # Theorems -/

/-- C1: the `/analyze` pipeline cannot run as written: `main.py` line 28
imports `scrape_homepage` from `app.scraper`, but the scraper module defines
no such operation (it defines `get_links`, `clean_html`, `scrape_website`),
so loading the endpoint module raises `ImportError` and the scrape step the
endpoint invokes is not an operation the scraper module provides. -/
theorem main_scraper_import_not_provided :
    scraper_module_defs.contains main_scraper_import = false := by
  decide

/-- C3: the `/chat` endpoint's call into the chat service does not pass
arguments the chat service accepts: the call uses keyword `content`, which is
not a parameter of `chat_interaction`, and omits the required parameter
`url`, so the call raises `TypeError`. -/
theorem chat_call_keywords_rejected :
    (chat_call_keywords.all fun k => chat_interaction_params.contains k)
        = false ∧
    chat_interaction_params.contains "content" = false ∧
    chat_call_keywords.contains "url" = false := by
  decide

/-- C8: both POST endpoints are gated by the bearer-token dependency: a
credential different from the configured secret yields a 401 with no
scraping, analysis, or chat effect performed, and the matching credential
passes `verify_token`. -/
theorem bearer_auth_gates_endpoints (secret token : String)
    (h : token ≠ secret) :
    verify_token secret token = .error 401 ∧
    analyze_website secret token = (.error 401, []) ∧
    chat_with_website secret token = (.error 401, []) ∧
    verify_token secret secret = .ok secret := by
  refine ⟨?_, ?_, ?_, ?_⟩ <;>
    simp [verify_token, analyze_website, chat_with_website, h]

/-- Witness for C8 at a concrete secret and mismatching token. -/
theorem bearer_auth_gates_endpoints_w :
    analyze_website "s3cret" "wrong" = (.error 401, []) :=
  (bearer_auth_gates_endpoints "s3cret" "wrong" (by decide)).2.1

/-! ## Lemmas about the strip helpers -/

theorem lstripC_sublist (c : Char) (l : List Char) :
    List.Sublist (lstripC c l) l := by
  induction l with
  | nil => simp [lstripC]
  | cons a l ih =>
    rw [lstripC]
    split
    · exact ih.trans (List.sublist_cons_self a l)
    · exact List.Sublist.refl _

theorem rstripC_sublist (c : Char) (l : List Char) :
    List.Sublist (rstripC c l) l := by
  induction l with
  | nil => simp [rstripC]
  | cons a l ih =>
    rw [rstripC]
    split
    · split
      · exact List.nil_sublist _
      · exact List.cons_sublist_cons.mpr (List.nil_sublist l)
    · next b m h =>
      rw [← h]
      exact List.cons_sublist_cons.mpr ih

theorem stripC_subset (c : Char) (l : List Char) : stripC c l ⊆ l :=
  ((rstripC_sublist c (lstripC c l)).trans (lstripC_sublist c l)).subset

theorem rstripC_cons_ne (c a : Char) (l : List Char) (hne : a ≠ c) :
    ∃ t, rstripC c (a :: l) = a :: t := by
  rw [rstripC]
  split
  · exact ⟨[], by rw [if_neg hne]⟩
  · next b m h => exact ⟨b :: m, rfl⟩

theorem rstripC_getLast_ne (c : Char) (l : List Char) :
    ∀ x, (rstripC c l).getLast? = some x → x ≠ c := by
  induction l with
  | nil => intro x hx; simp [rstripC] at hx
  | cons a l ih =>
    intro x hx
    rw [rstripC] at hx
    split at hx
    · split at hx
      · simp at hx
      · next hac =>
        simp at hx
        subst hx
        exact hac
    · next b m h =>
      rw [List.getLast?_cons_cons, ← h] at hx
      exact ih x hx

theorem mem_of_getLast_eq {α : Type} {l : List α} {x : α}
    (h : l.getLast? = some x) : x ∈ l := by
  induction l with
  | nil => simp at h
  | cons a l ih =>
    cases l with
    | nil =>
      simp at h
      simp [h]
    | cons b m =>
      rw [List.getLast?_cons_cons] at h
      exact List.mem_cons_of_mem a (ih h)

/-- The core validity argument for `get_index_name`: for any cleaned domain
whose characters are lowercase alphanumerics or hyphens and any hash prefix
of lowercase alphanumerics, the built name passes the Pinecone rules. -/
theorem pineconeValid_mk (clean0 hash8 : List Char)
    (hclean : ∀ ch ∈ clean0, (isLowerAlnum ch || ch == '-') = true)
    (hhash : ∀ ch ∈ hash8, isLowerAlnum ch = true) :
    pineconeValid (String.mk (rstripC '-'
      (("idx-".toList ++ (clean0 ++ '-' :: hash8)).take 45))) = true := by
  have hxs_valid : ∀ ch ∈ "idx-".toList ++ (clean0 ++ '-' :: hash8),
      (isLowerAlnum ch || ch == '-') = true := by
    intro ch hch
    have h4 : "idx-".toList = ['i', 'd', 'x', '-'] := rfl
    rcases List.mem_append.mp hch with hpre | hrest
    · rw [h4] at hpre
      simp only [List.mem_cons, List.not_mem_nil, or_false] at hpre
      rcases hpre with rfl | rfl | rfl | rfl <;> decide
    · rcases List.mem_append.mp hrest with hcl | hh
      · exact hclean ch hcl
      · rcases List.mem_cons.mp hh with rfl | hh2
        · decide
        · simp [hhash ch hh2]
  obtain ⟨ys, hys⟩ :
      ∃ ys, "idx-".toList ++ (clean0 ++ '-' :: hash8) = 'i' :: ys :=
    ⟨'d' :: 'x' :: '-' :: (clean0 ++ '-' :: hash8), rfl⟩
  have htake : ("idx-".toList ++ (clean0 ++ '-' :: hash8)).take 45
      = 'i' :: ys.take 44 := by
    rw [hys]
    rfl
  obtain ⟨t, ht⟩ := rstripC_cons_ne '-' 'i' (ys.take 44) (by decide)
  rw [pineconeValid]
  have htl : (String.mk (rstripC '-'
      (("idx-".toList ++ (clean0 ++ '-' :: hash8)).take 45))).toList
      = rstripC '-' (("idx-".toList ++ (clean0 ++ '-' :: hash8)).take 45) :=
    rfl
  rw [htl]
  have hmemxs : ∀ ch ∈ rstripC '-'
      (("idx-".toList ++ (clean0 ++ '-' :: hash8)).take 45),
      ch ∈ "idx-".toList ++ (clean0 ++ '-' :: hash8) := by
    intro ch hch
    exact List.take_subset 45 _ ((rstripC_sublist '-' _).subset hch)
  simp only [Bool.and_eq_true]
  refine ⟨⟨⟨?_, ?_⟩, ?_⟩, ?_⟩
  · rw [decide_eq_true_eq]
    calc (rstripC '-' (("idx-".toList ++ (clean0 ++ '-' :: hash8)).take 45)).length
        ≤ (("idx-".toList ++ (clean0 ++ '-' :: hash8)).take 45).length :=
          (rstripC_sublist '-' _).length_le
      _ ≤ 45 := by rw [List.length_take]; exact min_le_left _ _
  · rw [List.all_eq_true]
    intro ch hch
    exact hxs_valid ch (hmemxs ch hch)
  · rw [htake, ht]
    rfl
  · have hne : rstripC '-'
        (("idx-".toList ++ (clean0 ++ '-' :: hash8)).take 45) ≠ [] := by
      rw [htake, ht]
      exact List.cons_ne_nil _ _
    obtain ⟨x, hx⟩ := Option.isSome_iff_exists.mp
      (List.getLast?_isSome.mpr hne)
    rw [hx]
    have hxne : x ≠ '-' := rstripC_getLast_ne '-' _ x hx
    have hxmem := hmemxs x (mem_of_getLast_eq hx)
    have := hxs_valid x hxmem
    rcases Bool.or_eq_true _ _ |>.mp this with h1 | h2
    · exact h1
    · exact absurd (beq_iff_eq.mp h2) hxne

/-- C7: vector indexing is per site: `get_index_name` depends only on the
lowercased, port-stripped host derived from the URL's netloc (so two URLs of
the same site, e.g. the page indexed and the page queried, map to the same
index name), and whenever the MD5 hex digest consists of lowercase
alphanumerics (as `hexdigest()` always does) the produced name obeys the
stated Pinecone rules: at most 45 characters, only lowercase alphanumerics
and hyphens, starting and ending with an alphanumeric. -/
theorem get_index_name_per_site (md5hex : String → String) (u v : Url)
    (hhost : hostOf u = hostOf v)
    (hhex : ∀ ch ∈ (md5hex (hostOf u)).toList.take 8,
      isLowerAlnum ch = true) :
    get_index_name md5hex u = get_index_name md5hex v ∧
    pineconeValid (get_index_name md5hex u) = true := by
  constructor
  · unfold get_index_name
    rw [hhost]
  · have hclean : ∀ ch ∈ stripC '-' ((hostOf u).toList.map fun c =>
        if isLowerAlnum c then c else '-'),
        (isLowerAlnum ch || ch == '-') = true := by
      intro ch hch
      have := stripC_subset '-' _ hch
      rcases List.mem_map.mp this with ⟨c, _, hc⟩
      by_cases hcl : isLowerAlnum c = true
      · rw [← hc, if_pos hcl]
        simp [hcl]
      · rw [← hc, if_neg hcl]
        decide
    exact pineconeValid_mk _ _ hclean hhex

/-- Witness for C7: two URLs of the same site (different scheme, case, port,
path, fragment) get the same valid index name. -/
theorem get_index_name_per_site_w :
    get_index_name (fun _ => "0123456789abcdef0123456789abcdef")
        ⟨"http", "example.com", "/", ""⟩
      = get_index_name (fun _ => "0123456789abcdef0123456789abcdef")
        ⟨"https", "EXAMPLE.com:8080", "/about", "frag"⟩ ∧
    pineconeValid (get_index_name (fun _ => "0123456789abcdef0123456789abcdef")
        ⟨"http", "example.com", "/", ""⟩) = true :=
  get_index_name_per_site _ _ _ (by decide) (by decide)

/-! ## Chat prompt assembly and persistence -/

/-- Neither branch of the middle of the prompt can contribute a system
message: stored thread state is filtered, supplied history converts to human
or AI messages only. -/
theorem middleMessages_no_system (stored : Option (List Message))
    (history : List ChatMessage) :
    ((middleMessages stored history).all fun m => !m.isSystem) = true := by
  rw [List.all_eq_true]
  have hconv : ∀ m ∈ history.map convMessage, (!m.isSystem) = true := by
    intro m hm
    rcases List.mem_map.mp hm with ⟨cm, _, hcm⟩
    rw [← hcm]
    unfold convMessage
    split <;> rfl
  intro m hm
  rcases stored with _ | msgs
  · exact hconv m hm
  · rw [middleMessages] at hm
    split at hm
    · exact hconv m hm
    · exact (List.mem_filter.mp hm).2

/-- C5: the prompt sent to the model is the system message built from the
grounding rules plus the context between the two markers, followed by the
(system-free) middle, followed by the current user query; the system message
is the unique system message of the list and the query is its last
element. -/
theorem prompt_assembly (env : ChatEnv) (store : List (String × List Message))
    (url : Url) (query thread_id : String) (history : List ChatMessage) :
    promptMessages env store url query thread_id history
      = Message.system (GROUNDING_RULES ++
            "--- PROVIDED CONTEXT From Website ---\n" ++
            effectiveContext env url query ++ "\n--- END CONTEXT ---") ::
          middleMessages (storeLookup store thread_id) history ++
            [Message.human query] ∧
    ((promptMessages env store url query thread_id history).filter
        fun m => m.isSystem)
      = [Message.system (systemPromptOf (effectiveContext env url query))] ∧
    ((middleMessages (storeLookup store thread_id) history).all
        fun m => !m.isSystem) = true ∧
    (promptMessages env store url query thread_id history).getLast?
      = some (Message.human query) := by
  have hall := middleMessages_no_system (storeLookup store thread_id) history
  rw [List.all_eq_true] at hall
  refine ⟨rfl, ?_, middleMessages_no_system _ _, ?_⟩
  · show (Message.system (systemPromptOf (effectiveContext env url query)) ::
        (middleMessages (storeLookup store thread_id) history ++
          [Message.human query])).filter (fun m => m.isSystem) = _
    rw [List.filter_cons_of_pos (by rfl), List.filter_append]
    have h1 : ((middleMessages (storeLookup store thread_id) history).filter
        fun m => m.isSystem) = [] := by
      rw [List.filter_eq_nil_iff]
      intro a ha
      have := hall a ha
      rw [Bool.not_eq_true'] at this
      simp [this]
    rw [h1]
    rfl
  · show (Message.system (systemPromptOf (effectiveContext env url query)) ::
        (middleMessages (storeLookup store thread_id) history ++
          [Message.human query])).getLast? = _
    rw [← List.cons_append]
    exact List.getLast?_concat _

/-- C4: conversational state is per thread: a call whose thread has non-empty
stored state replays exactly the stored non-system messages (whatever history
argument is supplied), the store update of a call leaves every other thread's
entry unchanged, and a thread with no stored state falls back to the supplied
history. -/
theorem thread_state_persistence (env : ChatEnv)
    (store store2 : List (String × List Message)) (url : Url)
    (q tid tid2 : String) (h1 h2 : List ChatMessage) (stored : List Message)
    (hs : storeLookup store tid = some stored) (hne : stored ≠ [])
    (hdiff : tid2 ≠ tid) (hnone : storeLookup store2 tid = none) :
    promptMessages env store url q tid h1
      = Message.system (systemPromptOf (effectiveContext env url q)) ::
          (stored.filter fun m => !m.isSystem) ++ [Message.human q] ∧
    promptMessages env store url q tid h1
      = promptMessages env store url q tid h2 ∧
    storeLookup (chat_interaction env store url q tid h1).2 tid2
      = storeLookup store tid2 ∧
    promptMessages env store2 url q tid h1
      = Message.system (systemPromptOf (effectiveContext env url q)) ::
          h1.map convMessage ++ [Message.human q] := by
  have hmid : ∀ h : List ChatMessage,
      middleMessages (some stored) h = stored.filter fun m => !m.isSystem := by
    intro h
    cases stored with
    | nil => exact absurd rfl hne
    | cons a t => rfl
  refine ⟨?_, ?_, ?_, ?_⟩
  · unfold promptMessages
    rw [hs, hmid]
  · unfold promptMessages
    rw [hs, hmid, hmid]
  · have hbeq : (tid == tid2) = false :=
      beq_eq_false_iff_ne.mpr (Ne.symm hdiff)
    show storeLookup ((tid, _) :: store) tid2 = storeLookup store tid2
    rw [storeLookup, hbeq]
    rfl
  · unfold promptMessages
    rw [hnone]
    rfl

/-- Witness for C4: a call on thread `t1` does not disturb what thread `t2`
sees in the store. -/
theorem thread_state_persistence_w :
    storeLookup (chat_interaction sampleEnv sampleStore sampleUrl
        "what do they sell" "t1" []).2 "t2"
      = storeLookup sampleStore "t2" :=
  (thread_state_persistence sampleEnv sampleStore [] sampleUrl
    "what do they sell" "t1" "t2" [] [⟨"user", "earlier"⟩]
    [Message.system "old prompt", Message.human "hi", Message.ai "hello"]
    (by rfl) (by simp) (by decide) (by rfl)).2.2.1

/-- C10: when the Pinecone client is unconfigured, the site's index is
missing, or the search call raises, `query_context` returns the empty string
rather than raising, and `chat_interaction` substitutes the fallback context
and reports `context_sources = ["Website Content"]`. -/
theorem retrieval_failure_falls_back (env : ChatEnv)
    (store : List (String × List Message)) (url : Url)
    (q tid : String) (history : List ChatMessage)
    (h : env.pine.configured = false ∨
         env.pine.hasIndex (get_index_name env.md5hex url) = false ∨
         ∃ e, env.pine.search (get_index_name env.md5hex url) q
            = .error e) :
    query_context env.md5hex env.pine url q = "" ∧
    effectiveContext env url q = FALLBACK_CONTEXT ∧
    (chat_interaction env store url q tid history).1.context_sources
      = ["Website Content"] := by
  have hqc : query_context env.md5hex env.pine url q = "" := by
    simp only [query_context]
    by_cases hc : env.pine.configured = false
    · rw [if_pos hc]
    · rw [if_neg hc]
      by_cases hi : env.pine.hasIndex (get_index_name env.md5hex url) = false
      · rw [if_pos hi]
      · rw [if_neg hi]
        rcases h with h1 | h2 | ⟨e, h3⟩
        · exact absurd h1 hc
        · exact absurd h2 hi
        · rw [h3]
  refine ⟨hqc, ?_, ?_⟩
  · unfold effectiveContext
    rw [hqc]
    rfl
  · show (if (contextSourcesOf env url q).isEmpty then ["Website Content"]
        else contextSourcesOf env url q) = ["Website Content"]
    unfold contextSourcesOf
    rw [hqc]
    rfl

/-- Witness for C10 with the unconfigured Pinecone client of `sampleEnv`. -/
theorem retrieval_failure_falls_back_w :
    (chat_interaction sampleEnv [] sampleUrl "any question" "t1"
      []).1.context_sources = ["Website Content"] :=
  (retrieval_failure_falls_back sampleEnv [] sampleUrl "any question" "t1" []
    (Or.inl rfl)).2.2

/-! ## Crawler invariants -/

/-- Characterization of the enqueue loop: it appends a block of fresh links
at depth `d + 1` to the queue and records exactly their URLs, in order, in
the visited set; the block is duplicate-free. -/
theorem enqueueLinks_spec (d : Nat) (links : List Url) :
    ∀ (visited : List Url) (queue : List (Url × Nat)),
    ∃ extra : List (Url × Nat),
      (enqueueLinks d links visited queue).1 = visited ++ extra.map (·.1) ∧
      (enqueueLinks d links visited queue).2 = queue ++ extra ∧
      (∀ p ∈ extra, p.2 = d + 1 ∧ p.1 ∈ links ∧ p.1 ∉ visited) ∧
      (extra.map (·.1)).Nodup := by
  induction links with
  | nil =>
    intro visited queue
    exact ⟨[], by simp [enqueueLinks], by simp [enqueueLinks],
      by simp, List.nodup_nil⟩
  | cons l ls ih =>
    intro visited queue
    rw [enqueueLinks]
    by_cases hl : l ∈ visited
    · rw [if_pos hl]
      obtain ⟨extra, h1, h2, h3, h4⟩ := ih visited queue
      exact ⟨extra, h1, h2,
        fun p hp => ⟨(h3 p hp).1, List.mem_cons_of_mem _ (h3 p hp).2.1,
          (h3 p hp).2.2⟩, h4⟩
    · rw [if_neg hl]
      obtain ⟨extra, h1, h2, h3, h4⟩ := ih (visited ++ [l]) (queue ++ [(l, d + 1)])
      refine ⟨(l, d + 1) :: extra, ?_, ?_, ?_, ?_⟩
      · rw [h1]; simp
      · rw [h2]; simp
      · intro p hp
        rcases List.mem_cons.mp hp with rfl | hp2
        · exact ⟨rfl, List.mem_cons_self _ _, hl⟩
        · obtain ⟨hd, hm, hnv⟩ := h3 p hp2
          exact ⟨hd, List.mem_cons_of_mem _ hm,
            fun hc => hnv (List.mem_append_left _ hc)⟩
      · simp only [List.map_cons, List.nodup_cons]
        refine ⟨?_, h4⟩
        intro hc
        rcases List.mem_map.mp hc with ⟨p, hp, hpl⟩
        exact (h3 p hp).2.2 (List.mem_append_right _ (by simp [hpl]))

/-- Every link returned by `get_links` is on the base domain with an http or
https scheme. -/
theorem get_links_mem (anchors : List Url) (base : String) :
    ∀ l ∈ get_links anchors base,
      l.netloc = base ∧ (l.scheme = "http" ∨ l.scheme = "https") := by
  intro l hl
  unfold get_links at hl
  rw [List.mem_dedup] at hl
  rcases List.mem_map.mp hl with ⟨a, ha, hda⟩
  rw [List.mem_filter, Bool.and_eq_true] at ha
  rw [← hda]
  refine ⟨beq_iff_eq.mp ha.2.1, ?_⟩
  rcases Bool.or_eq_true _ _ |>.mp ha.2.2 with h | h
  · exact Or.inl (beq_iff_eq.mp h)
  · exact Or.inr (beq_iff_eq.mp h)

/-- One loop iteration preserves the crawl invariant: pop `(u, d)` off the
front, log the fetch, optionally append a result record (only when the page
bound still has room), and enqueue fresh same-site links at depth `d + 1`
(only when `d` is below the depth bound; a failed or depth-capped fetch
enqueues nothing, i.e. `links = []`). -/
theorem crawlInv_step (base : String) (start : Url) (maxd maxp : Nat)
    (s : CrawlState) (u : Url) (d : Nat) (rest : List (Url × Nat))
    (r2 : List (Url × String)) (links : List Url)
    (hinv : CrawlInv base start maxd maxp s)
    (hq : s.queue = (u, d) :: rest)
    (hres : r2 = s.results ∨
      (s.results.length < maxp ∧ ∃ c, r2 = s.results ++ [(u, c)]))
    (hdep : links = [] ∨ d < maxd)
    (hlinks : ∀ l ∈ links,
      l.netloc = base ∧ (l.scheme = "http" ∨ l.scheme = "https")) :
    CrawlInv base start maxd maxp
      { queue := (enqueueLinks d links s.visited rest).2
        visited := (enqueueLinks d links s.visited rest).1
        results := r2
        trace := s.trace ++ [(u, d)] } := by
  obtain ⟨extra, hv, hqe, hext, hnd⟩ := enqueueLinks_spec d links s.visited rest
  have hud : (u, d) ∈ s.queue := by rw [hq]; exact List.mem_cons_self _ _
  have hdmax : d ≤ maxd := hinv.queue_depth _ hud
  have hrq : ∀ p ∈ rest, p ∈ s.queue := by
    intro p hp; rw [hq]; exact List.mem_cons_of_mem _ hp
  have hqmap : s.queue.map (·.2) = d :: rest.map (·.2) := by rw [hq]; rfl
  have hd_le : ∀ b ∈ rest.map (·.2), d ≤ b := by
    have h := hinv.q_sorted
    rw [hqmap, List.pairwise_cons] at h
    exact h.1
  have hrest_sorted : List.Pairwise (· ≤ ·) (rest.map (·.2)) := by
    have h := hinv.q_sorted
    rw [hqmap, List.pairwise_cons] at h
    exact h.2
  have hb_le : ∀ b ∈ rest.map (·.2), b ≤ d + 1 := by
    intro b hb
    refine hinv.q_tight d ?_ b ?_
    · rw [hqmap]; exact List.mem_cons_self _ _
    · rw [hqmap]; exact List.mem_cons_of_mem _ hb
  have hextra_dep : ∀ p ∈ extra, p.2 = d + 1 := fun p hp => (hext p hp).1
  have hextra_links : ∀ p ∈ extra, p.1 ∈ links := fun p hp => (hext p hp).2.1
  have hextra_fresh : ∀ p ∈ extra, p.1 ∉ s.visited := fun p hp => (hext p hp).2.2
  have hd_lt : ∀ p ∈ extra, d < maxd := by
    intro p hp
    rcases hdep with h0 | h1
    · have h2 := hextra_links p hp
      rw [h0] at h2
      exact absurd h2 (List.not_mem_nil _)
    · exact h1
  rw [hv, hqe]
  refine
    { res_le := ?_, queue_depth := ?_, trace_depth := ?_, vis_ok := ?_,
      q_sorted := ?_, q_tight := ?_, t_sorted := ?_, t_q := ?_,
      q_vis := ?_, t_vis := ?_, tq_nodup := ?_, res_trace := ?_ }
  · rcases hres with h | ⟨hlt, c, hr⟩
    · rw [h]; exact hinv.res_le
    · rw [hr, List.length_append]
      simp only [List.length_singleton]
      omega
  · intro p hp
    rcases List.mem_append.mp hp with h | h
    · exact hinv.queue_depth p (hrq p h)
    · have := hd_lt p h
      rw [hextra_dep p h]
      omega
  · intro p hp
    rcases List.mem_append.mp hp with h | h
    · exact hinv.trace_depth p h
    · rw [List.mem_singleton] at h
      subst h
      exact hdmax
  · intro w hw
    rcases List.mem_append.mp hw with h | h
    · exact hinv.vis_ok w h
    · rcases List.mem_map.mp h with ⟨p, hp, hpw⟩
      right
      rw [← hpw]
      exact hlinks p.1 (hextra_links p hp)
  · rw [List.map_append, List.pairwise_append]
    refine ⟨hrest_sorted, ?_, ?_⟩
    · refine List.pairwise_of_forall_mem_list ?_
      intro a ha b hb
      rcases List.mem_map.mp ha with ⟨p, hp, hpa⟩
      rcases List.mem_map.mp hb with ⟨p2, hp2, hpb⟩
      rw [← hpa, ← hpb, hextra_dep p hp, hextra_dep p2 hp2]
    · intro a ha b hb
      rcases List.mem_map.mp hb with ⟨p, hp, hpb⟩
      rw [← hpb, hextra_dep p hp]
      exact hb_le a ha
  · intro a ha b hb
    rw [List.map_append] at ha hb
    have hval : ∀ x ∈ rest.map (·.2) ++ extra.map (·.2),
        x ∈ rest.map (·.2) ∨ x = d + 1 := by
      intro x hx
      rcases List.mem_append.mp hx with h | h
      · exact Or.inl h
      · rcases List.mem_map.mp h with ⟨p, hp, hpx⟩
        exact Or.inr (by rw [← hpx, hextra_dep p hp])
    rcases hval a ha with ha2 | ha2 <;> rcases hval b hb with hb2 | hb2
    · refine hinv.q_tight a ?_ b ?_
      · rw [hqmap]; exact List.mem_cons_of_mem _ ha2
      · rw [hqmap]; exact List.mem_cons_of_mem _ hb2
    · have := hd_le a ha2
      omega
    · have := hb_le b hb2
      omega
    · omega
  · rw [List.map_append, List.pairwise_append]
    refine ⟨hinv.t_sorted, ?_, ?_⟩
    · simp only [List.map_cons, List.map_nil]
      exact List.pairwise_singleton _ _
    · intro a ha b hb
      simp only [List.map_cons, List.map_nil, List.mem_singleton] at hb
      rw [hb]
      refine hinv.t_q a ha d ?_
      rw [hqmap]
      exact List.mem_cons_self _ _
  · intro a ha b hb
    rw [List.map_append] at ha hb
    have ha2 : a ∈ s.trace.map (·.2) ∨ a = d := by
      rcases List.mem_append.mp ha with h | h
      · exact Or.inl h
      · simp only [List.map_cons, List.map_nil, List.mem_singleton] at h
        exact Or.inr h
    have had : a ≤ d := by
      rcases ha2 with h | h
      · exact hinv.t_q a h d (by rw [hqmap]; exact List.mem_cons_self _ _)
      · omega
    rcases List.mem_append.mp hb with h | h
    · exact le_trans had (hd_le b h)
    · rcases List.mem_map.mp h with ⟨p, hp, hpb⟩
      rw [← hpb, hextra_dep p hp]
      omega
  · intro p hp
    rcases List.mem_append.mp hp with h | h
    · exact List.mem_append_left _ (hinv.q_vis p (hrq p h))
    · exact List.mem_append_right _ (List.mem_map_of_mem _ h)
  · intro p hp
    rcases List.mem_append.mp hp with h | h
    · exact List.mem_append_left _ (hinv.t_vis p h)
    · rw [List.mem_singleton] at h
      subst h
      exact List.mem_append_left _ (hinv.q_vis _ hud)
  · have hold : (s.trace.map (·.1) ++ (u :: rest.map (·.1))).Nodup := by
      have h := hinv.tq_nodup
      rw [hq] at h
      simpa using h
    have hdisj : ∀ x ∈ s.trace.map (·.1) ++ (u :: rest.map (·.1)),
        x ∉ extra.map (·.1) := by
      intro x hx hxe
      rcases List.mem_map.mp hxe with ⟨p, hp, hpx⟩
      have hxv : x ∈ s.visited := by
        rcases List.mem_append.mp hx with h | h
        · rcases List.mem_map.mp h with ⟨p2, hp2, hpx2⟩
          rw [← hpx2]
          exact hinv.t_vis p2 hp2
        · rcases List.mem_cons.mp h with rfl | h2
          · exact hinv.q_vis _ hud
          · rcases List.mem_map.mp h2 with ⟨p2, hp2, hpx2⟩
            rw [← hpx2]
            exact hinv.q_vis p2 (hrq p2 hp2)
      exact hextra_fresh p hp (hpx ▸ hxv)
    have heq : ((s.trace ++ [(u, d)]).map (·.1) ++ (rest ++ extra).map (·.1))
        = (s.trace.map (·.1) ++ (u :: rest.map (·.1))) ++ extra.map (·.1) := by
      simp
    rw [heq, List.nodup_append]
    exact ⟨hold, hnd, fun x hx hxe => hdisj x hx hxe⟩
  · have hTu : (s.trace ++ [(u, d)]).map (·.1)
        = s.trace.map (·.1) ++ [u] := by simp
    rw [hTu]
    rcases hres with h | ⟨hlt, c, hr⟩
    · rw [h]
      exact hinv.res_trace.trans (List.sublist_append_left _ _)
    · rw [hr]
      have hmap : (s.results ++ [(u, c)]).map (·.1)
          = s.results.map (·.1) ++ [u] := by simp
      rw [hmap]
      exact List.Sublist.append hinv.res_trace (List.Sublist.refl _)

/-- The initial crawl state satisfies the invariant. -/
theorem crawlInv_init (base : String) (start : Url) (maxd maxp : Nat) :
    CrawlInv base start maxd maxp (crawlInit start) := by
  refine
    { res_le := ?_, queue_depth := ?_, trace_depth := ?_, vis_ok := ?_,
      q_sorted := ?_, q_tight := ?_, t_sorted := ?_, t_q := ?_,
      q_vis := ?_, t_vis := ?_, tq_nodup := ?_, res_trace := ?_ } <;>
    simp [crawlInit]

/-- The crawl invariant is preserved by any number of loop iterations. -/
theorem crawl_inv (web : Url → Option Page) (base : String) (start : Url)
    (maxd maxp : Nat) :
    ∀ (fuel : Nat) (s : CrawlState), CrawlInv base start maxd maxp s →
      CrawlInv base start maxd maxp (crawl web base maxd maxp fuel s) := by
  intro fuel
  induction fuel with
  | zero => intro s h; exact h
  | succ fuel ih =>
    intro s hinv
    rw [crawl]
    cases hq : s.queue with
    | nil => exact hinv
    | cons p rest =>
      obtain ⟨u, d⟩ := p
      dsimp only
      by_cases hres : s.results.length < maxp
      · rw [if_pos hres]
        cases hw : web u with
        | none =>
          exact ih _ (crawlInv_step base start maxd maxp s u d rest
            s.results [] hinv hq (Or.inl rfl) (Or.inl rfl) (by simp))
        | some page =>
          dsimp only
          have hr2 : (if page.content ≠ "" then s.results ++ [(u, page.content)]
                else s.results) = s.results ∨
              (s.results.length < maxp ∧
                ∃ c, (if page.content ≠ "" then s.results ++ [(u, page.content)]
                  else s.results) = s.results ++ [(u, c)]) := by
            by_cases hc : page.content ≠ ""
            · exact Or.inr ⟨hres, page.content, by rw [if_pos hc]⟩
            · exact Or.inl (by rw [if_neg hc])
          by_cases hd2 : d < maxd
          · rw [if_pos hd2]
            exact ih _ (crawlInv_step base start maxd maxp s u d rest
              _ (get_links page.anchors base) hinv hq hr2 (Or.inr hd2)
              (get_links_mem page.anchors base))
          · rw [if_neg hd2]
            exact ih _ (crawlInv_step base start maxd maxp s u d rest
              _ [] hinv hq hr2 (Or.inl rfl) (by simp))
      · rw [if_neg hres]
        exact hinv

/-- C2: the crawl is bounded: `scrape_website` returns at most `max_pages`
page records; no fetch ever happens at a BFS depth above `max_depth` (links
are enqueued only from pages at depth strictly below `max_depth`, at depth
one greater); and everything ever enqueued beyond the start URL — i.e. every
visited URL other than the start — has the start URL's netloc and scheme
http or https. -/
theorem scrape_website_bounded (web : Url → Option Page) (start : Url)
    (maxd maxp fuel : Nat) :
    (scrape_website web start maxd maxp fuel).length ≤ maxp ∧
    (∀ p ∈ (crawl web start.netloc maxd maxp fuel (crawlInit start)).trace,
      p.2 ≤ maxd) ∧
    (∀ w ∈ (crawl web start.netloc maxd maxp fuel (crawlInit start)).visited,
      w = start ∨ (w.netloc = start.netloc ∧
        (w.scheme = "http" ∨ w.scheme = "https"))) := by
  have h := crawl_inv web start.netloc start maxd maxp fuel _
    (crawlInv_init start.netloc start maxd maxp)
  exact ⟨h.res_le, h.trace_depth, h.vis_ok⟩

/-- Witness for C2: a two-iteration crawl of the sample site respects the
page bound, and its first fetch is at depth 0 ≤ 1. -/
theorem scrape_website_bounded_w :
    (scrape_website sampleWeb sampleUrl 1 2 3).length ≤ 2 ∧
    ((sampleUrl, 0) : Url × Nat).2 ≤ 1 ∧
    (sampleLinkA = sampleUrl ∨ (sampleLinkA.netloc = sampleUrl.netloc ∧
      (sampleLinkA.scheme = "http" ∨ sampleLinkA.scheme = "https"))) :=
  ⟨(scrape_website_bounded sampleWeb sampleUrl 1 2 3).1,
   (scrape_website_bounded sampleWeb sampleUrl 1 2 3).2.1
     (sampleUrl, 0) (by decide),
   (scrape_website_bounded sampleWeb sampleUrl 1 2 3).2.2
     sampleLinkA (by decide)⟩

/-- C6: the crawl is breadth-first: at every point of the run (any fuel),
the frontier's depths are non-decreasing from front to back and any two of
them differ by at most one, and the fetch log's depths are non-decreasing,
i.e. URLs are fetched in non-decreasing depth order (the frontier is the FIFO
queue seeded with `(start_url, 0)` and children enter at depth one greater
than their parent, per the definition of `crawl`). -/
theorem crawl_bfs_order (web : Url → Option Page) (start : Url)
    (maxd maxp fuel : Nat) :
    List.Pairwise (· ≤ ·)
      ((crawl web start.netloc maxd maxp fuel
        (crawlInit start)).queue.map (·.2)) ∧
    (∀ a ∈ (crawl web start.netloc maxd maxp fuel
        (crawlInit start)).queue.map (·.2),
      ∀ b ∈ (crawl web start.netloc maxd maxp fuel
        (crawlInit start)).queue.map (·.2), b ≤ a + 1) ∧
    List.Pairwise (· ≤ ·)
      ((crawl web start.netloc maxd maxp fuel
        (crawlInit start)).trace.map (·.2)) := by
  have h := crawl_inv web start.netloc start maxd maxp fuel _
    (crawlInv_init start.netloc start maxd maxp)
  exact ⟨h.q_sorted, h.q_tight, h.t_sorted⟩

/-- Witness for C6: after one iteration on the sample site the frontier holds
the two children at depth 1, within one of each other. -/
theorem crawl_bfs_order_w : (1 : Nat) ≤ 1 + 1 :=
  (crawl_bfs_order sampleWeb sampleUrl 2 50 1).2.1
    1 (by decide) 1 (by decide)

/-- C9: no URL is fetched twice in one crawl: the fetch log's URLs are
pairwise distinct, and consequently each URL appears at most once in the
results list `scrape_website` returns. -/
theorem scrape_website_no_duplicates (web : Url → Option Page) (start : Url)
    (maxd maxp fuel : Nat) :
    ((crawl web start.netloc maxd maxp fuel
      (crawlInit start)).trace.map (·.1)).Nodup ∧
    ((scrape_website web start maxd maxp fuel).map (·.1)).Nodup := by
  have h := crawl_inv web start.netloc start maxd maxp fuel _
    (crawlInv_init start.netloc start maxd maxp)
  have htr : ((crawl web start.netloc maxd maxp fuel
      (crawlInit start)).trace.map (·.1)).Nodup :=
    h.tq_nodup.of_append_left
  exact ⟨htr, htr.sublist h.res_trace⟩

/-- Witness for C5 at a concrete environment, store, and query. -/
theorem prompt_assembly_w :
    (promptMessages sampleEnv sampleStore sampleUrl "what do they sell" "t1"
      []).getLast? = some (Message.human "what do they sell") :=
  (prompt_assembly sampleEnv sampleStore sampleUrl "what do they sell" "t1"
    []).2.2.2

/-- Witness for C9 on the concrete sample site. -/
theorem scrape_website_no_duplicates_w :
    ((scrape_website sampleWeb sampleUrl 2 50 10).map (·.1)).Nodup :=
  (scrape_website_no_duplicates sampleWeb sampleUrl 2 50 10).2
